import Mathlib

/-!
Verification development for the container-builder action.

The TypeScript sources are shallowly embedded: pure string manipulation is
modelled on `List Char` (JavaScript strings are sequences of code units and
all relevant inputs here are ASCII), JavaScript objects keyed by strings are
modelled as association lists where a later entry overrides an earlier one,
fallible collaborator calls (docker pull/push/tag/build) are modelled either
as `Except` values or as boolean success oracles, and the mutable
`placeholderImage` field of the `Docker` class is modelled by explicit state
passing.
-/

/-- Non-terminator whitespace characters of the `\s` class. -/
def isWsC (c : Char) : Bool :=
  c == ' ' || c == '\t' || c == '\x0b' || c == '\x0c'

/-- Line terminators: the characters after which a multiline `^` anchor
matches and before which a multiline `$` anchor matches. -/
def isLineSep (c : Char) : Bool :=
  c == '\n' || c == '\r'

/-- The full `\s` class of the regex engine: it contains the line
terminators as well, so whitespace runs inside a pattern may span lines. -/
def isJsWs (c : Char) : Bool :=
  isWsC c || isLineSep c

/-- Characters admissible in a stage name capture: the class excludes all
whitespace (terminators included) and the plus sign. -/
def isNameC (c : Char) : Bool :=
  !(isJsWs c) && c != '+'

/-- Split a character list at every separator character selected by `p`,
keeping empty segments: the semantics of JavaScript `String.split` with a
single-character separator. -/
def splitOnP (p : Char → Bool) : List Char → List (List Char)
  | [] => [[]]
  | c :: cs =>
    if p c then [] :: splitOnP p cs
    else
      match splitOnP p cs with
      | [] => [[c]]
      | r :: rs => (c :: r) :: rs

/-- JavaScript `value.split(sep)` for a one-character separator. -/
def splitOnChar (sep : Char) (l : List Char) : List (List Char) :=
  splitOnP (fun c => c == sep) l

/-- JavaScript `value.indexOf(c)`: index of the first occurrence. -/
def firstIdx (c : Char) : List Char → Option Nat
  | [] => none
  | x :: xs => if x = c then some 0 else (firstIdx c xs).map (· + 1)

/-- JavaScript `value.lastIndexOf(c)`: index of the last occurrence. -/
def lastIdx (c : Char) : List Char → Option Nat
  | [] => none
  | x :: xs =>
    match lastIdx c xs with
    | some i => some (i + 1)
    | none => if x = c then some 0 else none

/-- Strip a case-insensitive keyword (given in lowercase) from the front of a
character list, returning the remainder on success. -/
def stripCI : List Char → List Char → Option (List Char)
  | [], l => some l
  | _ :: _, [] => none
  | k :: ks, c :: cs => if c.toLower = k then stripCI ks cs else none

/-- Result type of `parseImageName` (the `ImageSource` type of `docker.ts`). -/
structure ImageSource where
  repository : String
  registry : String
  image : String
  tag : Option String
deriving DecidableEq, Repr

/-- The inner `splitRepositoryTag` helper of `Docker.parseImageName`:
separator is the first `@` if any, else the last `:`; if the candidate tag
contains a `/` the whole input is the repository and there is no tag. -/
def splitRepositoryTagL (v : List Char) : List Char × Option (List Char) :=
  let sep? : Option Nat :=
    match firstIdx '@' v with
    | some i => some i
    | none => lastIdx ':' v
  match sep? with
  | none => (v, none)
  | some p =>
    let tag := v.drop (p + 1)
    if '/' ∈ tag then (v, none)
    else (v.take p, some tag)

/-- The inner `splitRegistryImage` helper of `Docker.parseImageName`:
`repository.split('/', 2)` (a JavaScript split limit truncates the result
list), defaulting the registry unless the first segment looks like a host. -/
def splitRegistryImageL (r : List Char) : List Char × List Char :=
  let parts := (splitOnChar '/' r).take 2
  let p0 := parts.getD 0 []
  if parts.length = 1 ∨ (¬ '.' ∈ p0 ∧ ¬ ':' ∈ p0 ∧ ¬ p0 = "localhost".data) then
    ("docker.io".data, r)
  else
    (p0, parts.getD 1 [])

/-- `Docker.parseImageName` from `docker.ts`. -/
def parseImageName (name : String) : ImageSource :=
  let rt := splitRepositoryTagL name.data
  let ri := splitRegistryImageL rt.1
  { repository := String.mk rt.1
    registry := String.mk ri.1
    image := String.mk ri.2
    tag := rt.2.map String.mk }

/-- Rebuild `repository[:tag]` from a parsed image source. -/
def reconstructRef (i : ImageSource) : String :=
  match i.tag with
  | some t => i.repository ++ ":" ++ t
  | none => i.repository

/-- The `GitRefType` enumeration of `utils.ts`. -/
inductive GitRefType where
  | unknown
  | head
  | pullRequest
  | tag
deriving DecidableEq, Repr

/-- The `GitRef` record of `utils.ts`; `name` is absent exactly when the ref
did not classify. -/
structure GitRef where
  type : GitRefType
  name : Option String
deriving DecidableEq, Repr

/-- `parseGitRef` from `utils.ts`: `ref.split('/', 3)` destructured as
`[_, type, name]`; undefined or empty `type`/`name` yields `Unknown`. -/
def parseGitRef (ref : String) : GitRef :=
  let parts := splitOnChar '/' ref.data
  let ty := parts.getD 1 []
  let nm := parts.getD 2 []
  if ty = [] ∨ nm = [] then { type := GitRefType.unknown, name := none }
  else if ty = "heads".data then { type := GitRefType.head, name := some (String.mk nm) }
  else if ty = "pull".data then { type := GitRefType.pullRequest, name := some (String.mk nm) }
  else if ty = "tags".data then { type := GitRefType.tag, name := some (String.mk nm) }
  else { type := GitRefType.unknown, name := none }

/-- One attempt of the stage pattern
`^\s*FROM\s+[^\s]+\s+AS\s+(?<target>[^\s+]+)$` (keywords case-insensitive)
at a line-start position, over the whole remaining text. The `\s` runs use
the full class `isJsWs`, so they may span line terminators; the trailing
anchor demands that the capture be followed by a line terminator or the end
of the text. Returns the capture and the text after the match. Every
quantified run is delimited by a complementary character class, so greedy
maximal-munch scanning is exact. -/
def attemptStage (s : List Char) : Option (List Char × List Char) :=
  let s1 := s.dropWhile isJsWs
  match stripCI "from".data s1 with
  | none => none
  | some s2 =>
    if s2.takeWhile isJsWs = [] then none
    else
      let s3 := s2.dropWhile isJsWs
      let img := s3.takeWhile (fun c => !(isJsWs c))
      if img = [] then none
      else
        let s4 := s3.dropWhile (fun c => !(isJsWs c))
        if s4.takeWhile isJsWs = [] then none
        else
          let s5 := s4.dropWhile isJsWs
          match stripCI "as".data s5 with
          | none => none
          | some s6 =>
            if s6.takeWhile isJsWs = [] then none
            else
              let s7 := s6.dropWhile isJsWs
              let nm := s7.takeWhile isNameC
              if nm = [] then none
              else
                match s7.dropWhile isNameC with
                | [] => some (nm, [])
                | c :: rest2 => if isLineSep c then some (nm, c :: rest2) else none

/-- The global `exec` loop of the stage regex: candidate match starts are
the line-start positions; a successful match contributes its capture and
the scan resumes at the first line start after the match (its end is at a
line boundary by the trailing anchor); a failed attempt skips to the next
line start. Fuel-driven for structural recursion; every step strictly
shortens the text, so any fuel above the text length is equivalent. -/
def scanStagesFuel : Nat → List Char → List (List Char)
  | 0, _ => []
  | fuel + 1, s =>
    match attemptStage s with
    | some (nm, rest) =>
      match rest with
      | [] => [nm]
      | _ :: rest2 => nm :: scanStagesFuel fuel rest2
    | none =>
      match s.dropWhile (fun c => !(isLineSep c)) with
      | [] => []
      | _ :: rest2 => scanStagesFuel fuel rest2

/-- `Docker.parseBuildTargets` from `docker.ts`: run the stage regex with
the `igm` flags over the whole Dockerfile text and collect the captures in
order. -/
def parseBuildTargets (text : String) : List String :=
  (scanStagesFuel (text.data.length + 1) text.data).map String.mk

/-- Case-insensitive equality of a character run with a lowercase keyword. -/
def ciEq (f k : List Char) : Prop :=
  f.map Char.toLower = k

/-- Declarative reading of one stage match: the text decomposes into
optional leading whitespace, `FROM`, whitespace, a non-empty image token,
whitespace, `AS`, whitespace, the non-empty stage name, and the remainder,
which must be empty or start with a line terminator (the trailing anchor).
Whitespace runs use the full `\s` class and may therefore contain line
terminators. -/
def stageSpanSpec (s nm rest : List Char) : Prop :=
  ∃ w0 f w1 img w2 a w3,
    s = w0 ++ (f ++ (w1 ++ (img ++ (w2 ++ (a ++ (w3 ++ (nm ++ rest))))))) ∧
    (∀ c ∈ w0, isJsWs c = true) ∧
    ciEq f "from".data ∧
    w1 ≠ [] ∧ (∀ c ∈ w1, isJsWs c = true) ∧
    img ≠ [] ∧ (∀ c ∈ img, isJsWs c = false) ∧
    w2 ≠ [] ∧ (∀ c ∈ w2, isJsWs c = true) ∧
    ciEq a "as".data ∧
    w3 ≠ [] ∧ (∀ c ∈ w3, isJsWs c = true) ∧
    nm ≠ [] ∧ (∀ c ∈ nm, isNameC c = true) ∧
    (rest = [] ∨ ∃ c rest2, rest = c :: rest2 ∧ isLineSep c = true)

/-- The spec-side tag derived from a classified git ref: `latest` for the
`master` head, the branch name verbatim for any other head, `pr-<number>`
for a pull request, the tag name verbatim for a tag, nothing otherwise. -/
def specRefTag (g : GitRef) : Option String :=
  match g.type, g.name with
  | GitRefType.head, some n => if n = "master" then some "latest" else some n
  | GitRefType.pullRequest, some n => some ("pr-" ++ n)
  | GitRefType.tag, some n => some n
  | _, _ => none

/-- `ContainerBuilder.buildTargetImage`, restricted to its pure tag
computation: static tags, then the optional `sha-` tag, then the optional
ref-derived tag, with the JavaScript truthiness guards of the source. An
absent commit SHA or ref is modelled as the empty string. -/
def buildTargetImageTags (staticTags : List String) (tagWithSHA : Bool) (sha : String)
    (tagWithRef : Bool) (ref : String) : List String :=
  let d0 := staticTags
  let d1 :=
    if tagWithSHA = true ∧ ¬ sha = "" then
      (if 7 ≤ sha.length then d0 ++ ["sha-" ++ String.mk (sha.data.take 7)] else d0)
    else d0
  if tagWithRef = true ∧ ¬ ref = "" then
    (let g := parseGitRef ref
     match g.type with
     | GitRefType.head =>
       if g.name = some "master" then d1 ++ ["latest"]
       else
         match g.name with
         | some n => if ¬ n = "" then d1 ++ [n] else d1
         | none => d1
     | GitRefType.pullRequest =>
       match g.name with
       | some n => if ¬ n = "" then d1 ++ ["pr-" ++ n] else d1
       | none => d1
     | GitRefType.tag =>
       match g.name with
       | some n => if ¬ n = "" then d1 ++ [n] else d1
       | none => d1
     | GitRefType.unknown => d1)
  else d1

/-- JavaScript `filter(Boolean)` applied to an optional tag: drops both an
absent tag and an empty-string tag. -/
def jsTruthyTag : Option String → Option String
  | some t => if t = "" then none else some t
  | none => none

/-- `ContainerBuilder.cleanCachedStages`: compare the tags pulled from the
cache with the tags parsed out of the names of the images just built, and
return (in iteration order) the full names passed to `unpublishImage` for
each stale tag. -/
def cleanCachedStages (cacheRepository : String) (stageCache : List (String × String))
    (newImages : List (String × String)) : List String :=
  let currentTags := stageCache.map Prod.fst
  let expectedTags := ((newImages.map Prod.fst).map (fun x => (parseImageName x).tag)).filterMap jsTruthyTag
  currentTags.filterMap (fun tag =>
    if tag ∈ expectedTags then none
    else some (cacheRepository ++ ":" ++ tag))

/-- `ContainerBuilder.pullCachedStages`: the try-block is the sequencing of
the two fallible collaborator calls (`pullImage`, then `getImageTags`), the
catch-block converts any error into the empty tag map. -/
def pullCachedStages (pullResult : Except String Unit)
    (tagsResult : Except String (List (String × String))) : List (String × String) :=
  match pullResult.bind (fun _ => tagsResult) with
  | Except.ok stageCache => stageCache
  | Except.error _ => []

/-- One invocation of `Docker.buildImage` as observed by the orchestrator:
the image name, the accumulated cache-source list, and the optional stage
target. -/
structure BuildCall where
  name : String
  cacheFrom : List String
  target : Option String
deriving DecidableEq, Repr

/-- The stage loop of `ContainerBuilder.assembleImage`: build each target in
order, record the built image, and prepend its identifier to the
cache-source list (`cacheFrom.unshift(imageID)`). Returns the recorded
images, the final cache-source list and the trace of build calls. -/
def assembleLoop (repo : String) (build : BuildCall → String) :
    List String → List (String × String) → List String →
    List (String × String) × List String × List BuildCall
  | [], acc, cacheFrom => (acc, cacheFrom, [])
  | t :: ts, acc, cacheFrom =>
    let call : BuildCall := { name := repo ++ ":stage-" ++ t, cacheFrom := cacheFrom, target := some t }
    let id := build call
    let r := assembleLoop repo build ts (acc ++ [(repo ++ ":stage-" ++ t, id)]) (id :: cacheFrom)
    (r.1, r.2.1, call :: r.2.2)

/-- `ContainerBuilder.assembleImage`: the cache-source list starts from the
values of the pulled stage cache, each named stage is built in order, and
the implicit final stage is built last under `<cacheRepository>:final`.
The engine is modelled by the `build` oracle assigning an identifier to
every build call. -/
def assembleImage (repo : String) (stageCache : List (String × String)) (targets : List String)
    (build : BuildCall → String) : List (String × String) × List BuildCall :=
  let r := assembleLoop repo build targets [] (stageCache.map Prod.snd)
  let fcall : BuildCall := { name := repo ++ ":final", cacheFrom := r.2.1, target := none }
  (r.1 ++ [(repo ++ ":final", build fcall)], r.2.2 ++ [fcall])

/-- Reading a JavaScript object property: the last assignment to a key
wins. -/
def lookupLast (k : String) : List (String × String) → Option String
  | [] => none
  | kv :: rest =>
    match lookupLast k rest with
    | some v => some v
    | none => if kv.1 = k then some kv.2 else none

/-- The final-image check of `ContainerBuilder.run`: `newImages[finalImageName]`
is tested for truthiness; a missing or empty entry throws. -/
def runBuildCheck (repo : String) (newImages : List (String × String)) : Except String String :=
  let finalImageName := repo ++ ":final"
  match lookupLast finalImageName newImages with
  | some v => if v = "" then Except.error ("Could not final image output from build: " ++ finalImageName) else Except.ok v
  | none => Except.error ("Could not final image output from build: " ++ finalImageName)

/-- Observable docker-side effects of the soft-delete path. -/
inductive DockerAction where
  | buildPlaceholder (name : String)
  | tagImage (image : String) (repo : String) (tag : String)
  | pushImage (name : String)
deriving DecidableEq, Repr

/-- `Docker.getPlaceholderImage`: the guard is the JavaScript truthiness
test `!this.placeholderImage`, so the placeholder is (re)built when the
memoized field is absent or the empty string, and reused otherwise; the
placeholder is then re-tagged under the stale tag's repository and tag
(`source.tag || 'latest'`). The state is the `placeholderImage` field;
`buildId` is the identifier the engine would assign to a fresh placeholder
build. -/
def getPlaceholderImage (st : Option String) (name : String) (buildId : String) :
    Option String × List DockerAction :=
  let source := parseImageName name
  let tagOf : String :=
    match source.tag with
    | some t => if t = "" then "latest" else t
    | none => "latest"
  match st with
  | none =>
    (some buildId, [DockerAction.buildPlaceholder name, DockerAction.tagImage buildId source.repository tagOf])
  | some p =>
    if p = "" then
      (some buildId, [DockerAction.buildPlaceholder name, DockerAction.tagImage buildId source.repository tagOf])
    else
      (some p, [DockerAction.tagImage p source.repository tagOf])

/-- `Docker.unpublishImage`: every registry takes the placeholder-overwrite
path (the GitHub case falls through to the default), so the stale tag is
re-tagged to the placeholder and pushed. -/
def unpublishImage (st : Option String) (name : String) (buildId : String) :
    Option String × List DockerAction :=
  let r := getPlaceholderImage st name buildId
  (r.1, r.2 ++ [DockerAction.pushImage name])

/-- A run-scoped sequence of soft deletes: thread the memoization state
through consecutive `unpublishImage` calls, concatenating their action
traces. -/
def unpublishSeq (st : Option String) : List (String × String) → Option String × List DockerAction
  | [] => (st, [])
  | (name, bid) :: rest =>
    let r := unpublishImage st name bid
    let rec' := unpublishSeq r.1 rest
    (rec'.1, r.2 ++ rec'.2)

/-- Number of placeholder builds in an action trace. -/
def countPlaceholderBuilds (acts : List DockerAction) : Nat :=
  (acts.filter (fun a =>
    match a with
    | DockerAction.buildPlaceholder _ => true
    | _ => false)).length

/-- One operation of the publish step. -/
inductive PubOp where
  | tagOp (name : String)
  | pushOp (name : String)
deriving DecidableEq, Repr

/-- The tagging loop of `ContainerBuilder.buildTargetImage` over the already
resolved tag list: each tag is applied as `<targetRepository>:<tag>`; the
`tagOk` oracle tells which `tagImage` calls succeed, and a failure throws,
abandoning the rest. Returns the result (the tagged-image list on success)
and the trace of attempted tag operations. -/
def tagLoop (repo : String) (tagOk : String → Bool) : List String → Except String (List String) × List String
  | [] => (Except.ok [], [])
  | t :: ts =>
    let name := repo ++ ":" ++ t
    if tagOk name then
      match tagLoop repo tagOk ts with
      | (Except.ok rest, tr) => (Except.ok (name :: rest), name :: tr)
      | (Except.error e, tr) => (Except.error e, name :: tr)
    else (Except.error name, [name])

/-- `ContainerBuilder.publishImages`: push each tagged image in order; a
failing push throws, abandoning the rest. Returns the result and the trace
of attempted pushes. -/
def pushLoop (pushOk : String → Bool) : List String → Except String Unit × List String
  | [] => (Except.ok (), [])
  | i :: is =>
    if pushOk i then
      let r := pushLoop pushOk is
      (r.1, i :: r.2)
    else (Except.error i, [i])

/-- The whole publish step: the tag loop followed, on success, by the push
loop, with the combined operation trace. -/
def publishPhase (repo : String) (tags : List String) (tagOk pushOk : String → Bool) :
    Except String Unit × List PubOp :=
  match tagLoop repo tagOk tags with
  | (Except.error e, tr) => (Except.error e, tr.map PubOp.tagOp)
  | (Except.ok imgs, tr) =>
    let p := pushLoop pushOk imgs
    (p.1, tr.map PubOp.tagOp ++ p.2.map PubOp.pushOp)

/-- The complete operation sequence of a fully successful publish step: all
tag operations in list order, then all push operations in list order. -/
def fullPubTrace (repo : String) (tags : List String) : List PubOp :=
  tags.map (fun t => PubOp.tagOp (repo ++ ":" ++ t)) ++ tags.map (fun t => PubOp.pushOp (repo ++ ":" ++ t))

/-- Whether one publish operation succeeds under the two oracles. -/
def pubOpOk (tagOk pushOk : String → Bool) : PubOp → Bool
  | PubOp.tagOp n => tagOk n
  | PubOp.pushOp n => pushOk n


/-! ### Basic lemmas about the string helpers -/

theorem string_data_inj {a b : String} (h : a.data = b.data) : a = b := by
  obtain ⟨ad⟩ := a
  obtain ⟨bd⟩ := b
  exact congrArg String.mk h

theorem string_append_right_cancel (repo a b : String)
    (h : repo ++ ":" ++ a = repo ++ ":" ++ b) : a = b := by
  have hd := congrArg String.data h
  simp only [String.data_append] at hd
  exact string_data_inj (List.append_cancel_left hd)

theorem firstIdx_eq_none {c : Char} : ∀ {v : List Char}, c ∉ v → firstIdx c v = none := by
  intro v
  induction v with
  | nil => intro _; rfl
  | cons x xs ih =>
    intro h
    rw [List.mem_cons, not_or] at h
    obtain ⟨h1, h2⟩ := h
    have h1' : ¬ x = c := fun hh => h1 hh.symm
    simp [firstIdx, if_neg h1', ih h2]

theorem lastIdx_recover (c : Char) : ∀ (v : List Char) (p : Nat),
    lastIdx c v = some p → v.take p ++ c :: v.drop (p + 1) = v
  | [], p, h => by simp [lastIdx] at h
  | x :: xs, p, h => by
    simp only [lastIdx] at h
    cases hx : lastIdx c xs with
    | some i =>
      rw [hx] at h
      injection h with h2
      subst h2
      simp only [List.take_succ_cons, List.drop_succ_cons, List.cons_append]
      rw [lastIdx_recover c xs i hx]
    | none =>
      rw [hx] at h
      by_cases hxc : x = c
      · rw [if_pos hxc] at h
        injection h with h2
        subst h2
        simp [hxc]
      · rw [if_neg hxc] at h
        exact Option.noConfusion h

theorem splitOnP_append_sep (p : Char → Bool) (s : Char) (hs : p s = true) :
    ∀ (xs r : List Char), (∀ c ∈ xs, p c = false) →
      splitOnP p (xs ++ s :: r) = xs :: splitOnP p r
  | [], r, _ => by simp [splitOnP, hs]
  | x :: xs, r, h => by
    have hx : p x = false := h x (List.mem_cons_self x xs)
    have ih := splitOnP_append_sep p s hs xs r (fun c hc => h c (List.mem_cons_of_mem x hc))
    simp [splitOnP, hx, ih]

theorem getD_cons_one (a : List Char) (l : List (List Char)) : (a :: l).getD 1 [] = l.getD 0 [] := rfl

theorem getD_cons_two (a : List Char) (l : List (List Char)) : (a :: l).getD 2 [] = l.getD 1 [] := rfl

/-! ### C10: the git-ref parser looks only at the second and third segments -/

/-- C10: `parseGitRef` never inspects the first `/`-separated segment: for any
slash-free first segment the parse agrees with the same tail under `refs/`;
`foo/heads/main` classifies as a head named `main`; a head ref whose branch
name contains `/` keeps only the third segment; fewer than three segments
yield the unknown ref. -/
theorem c10_ref_segments :
    (∀ s₁ rest : String, '/' ∉ s₁.data →
        parseGitRef (s₁ ++ "/" ++ rest) = parseGitRef ("refs/" ++ rest)) ∧
    parseGitRef "foo/heads/main" = { type := GitRefType.head, name := some "main" } ∧
    parseGitRef "refs/heads/feature/x" = { type := GitRefType.head, name := some "feature" } ∧
    (∀ s : String, (splitOnChar '/' s.data).length < 3 →
        parseGitRef s = { type := GitRefType.unknown, name := none }) := by
  refine ⟨?_, by decide, by decide, ?_⟩
  · intro s₁ rest h
    have hp : ∀ c ∈ s₁.data, (c == '/') = false :=
      fun c hc => beq_eq_false_iff_ne.mpr (fun he => h (he ▸ hc))
    have hdata : (s₁ ++ "/" ++ rest).data = s₁.data ++ '/' :: rest.data := by
      simp only [String.data_append]
      rw [List.append_assoc]
      rfl
    have hdata2 : ("refs/" ++ rest).data = "refs".data ++ '/' :: rest.data := by
      rw [String.data_append]
      rfl
    have h1 : splitOnChar '/' (s₁ ++ "/" ++ rest).data = s₁.data :: splitOnChar '/' rest.data := by
      rw [hdata]
      exact splitOnP_append_sep _ '/' (by simp) s₁.data rest.data hp
    have h2 : splitOnChar '/' ("refs/" ++ rest).data = "refs".data :: splitOnChar '/' rest.data := by
      rw [hdata2]
      exact splitOnP_append_sep _ '/' (by simp) "refs".data rest.data (by decide)
    simp only [parseGitRef, h1, h2, getD_cons_one, getD_cons_two]
  · intro s h
    have h2 : (splitOnChar '/' s.data).getD 2 [] = [] := List.getD_eq_default _ _ (by omega)
    simp only [parseGitRef]
    rw [h2]
    simp

theorem c10_ref_segments_witness :
    parseGitRef ("foo" ++ "/" ++ "heads/main") = parseGitRef ("refs/" ++ "heads/main") :=
  c10_ref_segments.1 "foo" "heads/main" (by decide)

/-! ### C9 / C4: image-reference parsing -/

theorem splitRepositoryTagL_none : ∀ {v r : List Char},
    splitRepositoryTagL v = (r, none) → r = v := by
  intro v r h
  unfold splitRepositoryTagL at h
  cases h1 : firstIdx '@' v with
  | some i =>
    rw [h1] at h
    simp only at h
    by_cases hm : '/' ∈ v.drop (i + 1)
    · rw [if_pos hm] at h
      injection h with ha hb
      exact ha.symm
    · rw [if_neg hm] at h
      injection h with ha hb
      exact Option.noConfusion hb
  | none =>
    rw [h1] at h
    simp only at h
    cases h2 : lastIdx ':' v with
    | none =>
      rw [h2] at h
      simp only at h
      injection h with ha hb
      exact ha.symm
    | some p =>
      rw [h2] at h
      simp only at h
      by_cases hm : '/' ∈ v.drop (p + 1)
      · rw [if_pos hm] at h
        injection h with ha hb
        exact ha.symm
      · rw [if_neg hm] at h
        injection h with ha hb
        exact Option.noConfusion hb

theorem splitRepositoryTagL_tag_no_at : ∀ {v r t : List Char}, '@' ∉ v →
    splitRepositoryTagL v = (r, some t) → r ++ ':' :: t = v := by
  intro v r t hat h
  have h1 : firstIdx '@' v = none := firstIdx_eq_none hat
  unfold splitRepositoryTagL at h
  rw [h1] at h
  simp only at h
  cases h2 : lastIdx ':' v with
  | none =>
    rw [h2] at h
    simp only at h
    injection h with ha hb
    exact Option.noConfusion hb
  | some p =>
    rw [h2] at h
    simp only at h
    by_cases hm : '/' ∈ v.drop (p + 1)
    · rw [if_pos hm] at h
      injection h with ha hb
      exact Option.noConfusion hb
    · rw [if_neg hm] at h
      injection h with ha hb
      injection hb with ht2
      rw [← ha, ← ht2]
      exact lastIdx_recover ':' v p h2

theorem reconstruct_no_at {s : String} (h : '@' ∉ s.data) :
    reconstructRef (parseImageName s) = s := by
  rcases hrt : splitRepositoryTagL s.data with ⟨r, t?⟩
  cases t? with
  | none =>
    have hr : r = s.data := splitRepositoryTagL_none hrt
    simp only [parseImageName, reconstructRef, hrt, Option.map_none']
    exact string_data_inj (by simpa using hr)
  | some t =>
    have hr : r ++ ':' :: t = s.data := splitRepositoryTagL_tag_no_at h hrt
    simp only [parseImageName, reconstructRef, hrt, Option.map_some']
    refine string_data_inj ?_
    simp only [String.data_append]
    rw [List.append_assoc]
    exact hr

/-- C9 (amended): parsing the reconstructed `repository[:tag]` of a parsed
result yields the same fields, for every input that contains no `@`
(digest references re-split differently on reconstruction). -/
theorem c9_parse_idempotent_no_digest :
    ∀ s : String, '@' ∉ s.data →
      parseImageName (reconstructRef (parseImageName s)) = parseImageName s := by
  intro s h
  rw [reconstruct_no_at h]

theorem c9_parse_idempotent_no_digest_witness :
    parseImageName (reconstructRef (parseImageName "ubuntu:20.04")) = parseImageName "ubuntu:20.04" :=
  c9_parse_idempotent_no_digest "ubuntu:20.04" (by decide)

/-- C9 (counterexample): a digest reference breaks idempotence: `a@b:c`
parses to repository `a`, tag `b:c`, but its reconstruction `a:b:c`
re-parses to repository `a:b`, tag `c`. -/
theorem c9_counterexample :
    ¬ parseImageName (reconstructRef (parseImageName "a@b:c")) = parseImageName "a@b:c" := by
  decide

/-- C4: evaluation of the parser on a registry-qualified multi-segment
reference. The registry and the absent tag come out as the specification
says, but the JavaScript `split('/', 2)` drops everything after the second
path segment, so the image is `ns`, not `ns/img`, and the invariant
`repository == registry + "/" + image` fails. -/
theorem c4_multi_segment_image_eval :
    parseImageName "my.registry:5000/ns/img" =
      { repository := "my.registry:5000/ns/img", registry := "my.registry:5000",
        image := "ns", tag := none } ∧
    ¬ (parseImageName "my.registry:5000/ns/img").image = "ns/img" ∧
    ¬ (parseImageName "my.registry:5000/ns/img").repository =
        (parseImageName "my.registry:5000/ns/img").registry ++ "/" ++
          (parseImageName "my.registry:5000/ns/img").image := by
  refine ⟨by decide, by decide, by decide⟩

/-! ### C1: prune-phase exactness -/

theorem mem_expectedTags {names : List String} {t : String} (ht : ¬ t = "") :
    t ∈ (names.map (fun x => (parseImageName x).tag)).filterMap jsTruthyTag ↔
      ∃ n ∈ names, (parseImageName n).tag = some t := by
  rw [List.mem_filterMap]
  constructor
  · rintro ⟨o, ho, hto⟩
    rw [List.mem_map] at ho
    obtain ⟨n, hn, rfl⟩ := ho
    refine ⟨n, hn, ?_⟩
    cases hpt : (parseImageName n).tag with
    | none => rw [hpt] at hto; exact Option.noConfusion hto
    | some u =>
      rw [hpt] at hto
      simp only [jsTruthyTag] at hto
      by_cases hu : u = ""
      · rw [if_pos hu] at hto; exact Option.noConfusion hto
      · rw [if_neg hu] at hto
        rw [hto]
  · rintro ⟨n, hn, hpt⟩
    refine ⟨(parseImageName n).tag, List.mem_map_of_mem _ hn, ?_⟩
    rw [hpt]
    simp only [jsTruthyTag, if_neg ht]

/-- C1: the prune phase retires exactly the pulled cache tags whose tag name
is not among the tags parsed from the newly built image names; in
particular, previous tags `stage-a`, `stage-b`, `final` against a build
producing `stage-a` and `final` retire exactly `stage-b`. -/
theorem c1_prune_exact :
    (∀ (repo : String) (stageCache newImages : List (String × String)) (t : String), ¬ t = "" →
      ((repo ++ ":" ++ t) ∈ cleanCachedStages repo stageCache newImages ↔
        (t ∈ stageCache.map Prod.fst ∧
          ∀ n ∈ newImages.map Prod.fst, ¬ (parseImageName n).tag = some t))) ∧
    cleanCachedStages "repo-cache" [("stage-a", "i1"), ("stage-b", "i2"), ("final", "i3")]
        [("repo-cache:stage-a", "h1"), ("repo-cache:final", "h2")] = ["repo-cache:stage-b"] := by
  constructor
  · intro repo stageCache newImages t ht
    simp only [cleanCachedStages]
    rw [List.mem_filterMap]
    constructor
    · rintro ⟨tg, htg, heq⟩
      by_cases hmem : tg ∈ (((newImages.map Prod.fst).map (fun x => (parseImageName x).tag)).filterMap jsTruthyTag)
      · rw [if_pos hmem] at heq
        exact Option.noConfusion heq
      · rw [if_neg hmem] at heq
        injection heq with heq2
        have htg2 : tg = t := string_append_right_cancel repo tg t heq2
        subst htg2
        refine ⟨htg, ?_⟩
        intro n hn hsome
        exact hmem ((mem_expectedTags ht).mpr ⟨n, hn, hsome⟩)
    · rintro ⟨hmem, hall⟩
      refine ⟨t, hmem, ?_⟩
      have hnot : ¬ t ∈ (((newImages.map Prod.fst).map (fun x => (parseImageName x).tag)).filterMap jsTruthyTag) := by
        intro hc
        obtain ⟨n, hn, hsome⟩ := (mem_expectedTags ht).mp hc
        exact hall n hn hsome
      rw [if_neg hnot]
  · decide

theorem c1_prune_exact_witness :
    ("repo-cache" ++ ":" ++ "stage-b") ∈
        cleanCachedStages "repo-cache" [("stage-a", "i1"), ("stage-b", "i2"), ("final", "i3")]
          [("repo-cache:stage-a", "h1"), ("repo-cache:final", "h2")] ↔
      ("stage-b" ∈ ([("stage-a", "i1"), ("stage-b", "i2"), ("final", "i3")] : List (String × String)).map Prod.fst ∧
        ∀ n ∈ ([("repo-cache:stage-a", "h1"), ("repo-cache:final", "h2")] : List (String × String)).map Prod.fst,
          ¬ (parseImageName n).tag = some "stage-b") :=
  c1_prune_exact.1 "repo-cache" _ _ "stage-b" (by decide)

/-! ### C2 / C8: cold-cache resilience and the final-image guarantee -/

theorem assembleImage_head_cacheFrom (repo : String) (build : BuildCall → String)
    (targets : List String) (stageCache : List (String × String)) :
    ∃ c, ((assembleImage repo stageCache targets build).2).head? = some c ∧
      c.cacheFrom = stageCache.map Prod.snd := by
  cases targets with
  | nil =>
    exact ⟨{ name := repo ++ ":final", cacheFrom := stageCache.map Prod.snd, target := none },
      rfl, rfl⟩
  | cons t ts =>
    exact ⟨{ name := repo ++ ":stage-" ++ t, cacheFrom := stageCache.map Prod.snd, target := some t },
      rfl, rfl⟩

/-- C2: a failure of either collaborator call inside the pull phase is
absorbed into the empty tag map (never propagated), and the assemble phase
run from such an empty cache issues its first build with an empty
cache-source list. -/
theorem c2_cold_cache :
    (∀ (e : String) (tagsResult : Except String (List (String × String))),
        pullCachedStages (Except.error e) tagsResult = []) ∧
    (∀ (pullResult : Except String Unit) (e : String),
        pullCachedStages pullResult (Except.error e) = []) ∧
    (∀ (repo : String) (targets : List String) (build : BuildCall → String) (e : String)
        (tagsResult : Except String (List (String × String))),
        ∃ c, ((assembleImage repo (pullCachedStages (Except.error e) tagsResult) targets build).2).head? = some c ∧
          c.cacheFrom = []) := by
  refine ⟨fun _ _ => rfl, ?_, ?_⟩
  · intro pullResult e
    cases pullResult with
    | ok u => rfl
    | error e2 => rfl
  · intro repo targets build e tagsResult
    have h0 : pullCachedStages (Except.error e) tagsResult = [] := rfl
    rw [h0]
    exact assembleImage_head_cacheFrom repo build targets []

theorem lookupLast_append_key (k v : String) : ∀ (xs : List (String × String)),
    lookupLast k (xs ++ [(k, v)]) = some v
  | [] => by simp [lookupLast]
  | kv :: rest => by
    simp only [List.cons_append, lookupLast, List.append_eq, lookupLast_append_key k v rest]

/-- C8: the assemble phase always records an entry keyed
`<cacheRepository>:final` (it is the last image built), so as long as the
engine returns non-empty image identifiers the fatal-error branch of `run`
cannot fire; conversely a map with no such entry makes the check fail. -/
theorem c8_final_image :
    (∀ (repo : String) (stageCache : List (String × String)) (targets : List String)
        (build : BuildCall → String), (∀ c, ¬ build c = "") →
        ∃ id, lookupLast (repo ++ ":final") (assembleImage repo stageCache targets build).1 = some id ∧
          runBuildCheck repo (assembleImage repo stageCache targets build).1 = Except.ok id) ∧
    (∀ (repo : String) (m : List (String × String)),
        lookupLast (repo ++ ":final") m = none →
        runBuildCheck repo m = Except.error ("Could not final image output from build: " ++ (repo ++ ":final"))) := by
  constructor
  · intro repo stageCache targets build hne
    have hshape : (assembleImage repo stageCache targets build).1 =
        (assembleLoop repo build targets [] (stageCache.map Prod.snd)).1 ++
          [(repo ++ ":final",
            build { name := repo ++ ":final",
                    cacheFrom := (assembleLoop repo build targets [] (stageCache.map Prod.snd)).2.1,
                    target := none })] := rfl
    set fid := build { name := repo ++ ":final",
                       cacheFrom := (assembleLoop repo build targets [] (stageCache.map Prod.snd)).2.1,
                       target := none } with hfid
    have hlook : lookupLast (repo ++ ":final") (assembleImage repo stageCache targets build).1 = some fid := by
      rw [hshape]
      exact lookupLast_append_key _ _ _
    refine ⟨fid, hlook, ?_⟩
    have hfne : ¬ fid = "" := by
      rw [hfid]
      exact hne _
    simp only [runBuildCheck]
    rw [hlook]
    simp only
    rw [if_neg hfne]
  · intro repo m h
    simp only [runBuildCheck]
    rw [h]

theorem c8_final_image_witness :
    (∃ id, lookupLast ("c" ++ ":final") (assembleImage "c" [] ["builder"] (fun _ => "sha256-x")).1 = some id ∧
      runBuildCheck "c" (assembleImage "c" [] ["builder"] (fun _ => "sha256-x")).1 = Except.ok id) ∧
    runBuildCheck "c" [] = Except.error ("Could not final image output from build: " ++ ("c" ++ ":final")) :=
  ⟨c8_final_image.1 "c" [] ["builder"] (fun _ => "sha256-x")
      (by intro c h; exact absurd h (show ¬ "sha256-x" = "" by decide)),
    c8_final_image.2 "c" [] rfl⟩

/-! ### C6: the placeholder image is built at most once per run -/

theorem countPlaceholderBuilds_append (a b : List DockerAction) :
    countPlaceholderBuilds (a ++ b) = countPlaceholderBuilds a + countPlaceholderBuilds b := by
  simp [countPlaceholderBuilds, List.filter_append]

theorem unpublishSeq_from_some (p : String) (hp : ¬ p = "") : ∀ calls : List (String × String),
    countPlaceholderBuilds (unpublishSeq (some p) calls).2 = 0 ∧
      (unpublishSeq (some p) calls).1 = some p
  | [] => ⟨rfl, rfl⟩
  | (name, bid) :: rest => by
    have ih := unpublishSeq_from_some p hp rest
    have h1 : (unpublishImage (some p) name bid).1 = some p := by
      show (getPlaceholderImage (some p) name bid).1 = some p
      simp only [getPlaceholderImage]
      rw [if_neg hp]
    have h2 : countPlaceholderBuilds (unpublishImage (some p) name bid).2 = 0 := by
      show countPlaceholderBuilds
        ((getPlaceholderImage (some p) name bid).2 ++ [DockerAction.pushImage name]) = 0
      rw [countPlaceholderBuilds_append]
      simp only [getPlaceholderImage]
      rw [if_neg hp]
      rfl
    have hseq2 : (unpublishSeq (some p) ((name, bid) :: rest)).2 =
        (unpublishImage (some p) name bid).2 ++
          (unpublishSeq ((unpublishImage (some p) name bid).1) rest).2 := rfl
    have hseq1 : (unpublishSeq (some p) ((name, bid) :: rest)).1 =
        (unpublishSeq ((unpublishImage (some p) name bid).1) rest).1 := rfl
    constructor
    · rw [hseq2, h1, countPlaceholderBuilds_append, ih.1, h2]
    · rw [hseq1, h1]
      exact ih.2

/-- C6: across any sequence of soft-delete retirements in one run, the
placeholder image is built at most once, provided the engine assigns
non-empty image identifiers (a falsy memoized identifier would fail the
source's truthiness check and rebuild); once a non-empty identifier is
memoized, no further retirement rebuilds the placeholder and the memoized
value is kept. -/
theorem c6_placeholder_memoized :
    (∀ calls : List (String × String), (∀ c ∈ calls, ¬ c.2 = "") →
        countPlaceholderBuilds (unpublishSeq none calls).2 ≤ 1) ∧
    (∀ (p : String) (calls : List (String × String)), ¬ p = "" →
        countPlaceholderBuilds (unpublishSeq (some p) calls).2 = 0 ∧
        (unpublishSeq (some p) calls).1 = some p) := by
  constructor
  · intro calls hids
    cases calls with
    | nil => simp [unpublishSeq, countPlaceholderBuilds]
    | cons c rest =>
      obtain ⟨name, bid⟩ := c
      have hbid : ¬ bid = "" := hids (name, bid) (List.mem_cons_self _ _)
      have ih := (unpublishSeq_from_some bid hbid rest).1
      have h1 : (unpublishSeq none ((name, bid) :: rest)).2 =
          (unpublishImage none name bid).2 ++ (unpublishSeq (some bid) rest).2 := rfl
      rw [h1, countPlaceholderBuilds_append, ih]
      exact le_of_eq rfl
  · intro p calls hp
    exact unpublishSeq_from_some p hp calls

theorem c6_placeholder_memoized_witness :
    countPlaceholderBuilds
        (unpublishSeq none [("cache:stage-a", "sha256-p"), ("cache:stage-b", "sha256-p")]).2 ≤ 1 :=
  c6_placeholder_memoized.1 [("cache:stage-a", "sha256-p"), ("cache:stage-b", "sha256-p")]
    (by decide)

/-! ### C3: resolved publish tags -/

theorem string_mk_ne_empty {l : List Char} (h : ¬ l = []) : ¬ String.mk l = "" := by
  intro hc
  exact h (congrArg String.data hc)

theorem parseGitRef_name_not_empty (r : String) : ¬ (parseGitRef r).name = some "" := by
  simp only [parseGitRef]
  split_ifs with h1 h2 h3 h4
  · intro hc
    exact hc
  · intro hc
    exact string_mk_ne_empty (not_or.mp h1).2 (Option.some.inj hc)
  · intro hc
    exact string_mk_ne_empty (not_or.mp h1).2 (Option.some.inj hc)
  · intro hc
    exact string_mk_ne_empty (not_or.mp h1).2 (Option.some.inj hc)
  · intro hc
    exact hc

theorem parseGitRef_empty : parseGitRef "" = { type := GitRefType.unknown, name := none } := by
  decide

/-- C3: the resolved publish tag list is exactly the non-empty static tags in
order, then the `sha-` tag when SHA tagging is enabled and the SHA has at
least seven characters, then the single spec-side ref-derived tag when ref
tagging is enabled; an absent SHA or ref (or an unrecognized ref) simply
contributes nothing. -/
theorem c3_tag_resolution :
    ∀ (staticTags : List String) (sw : Bool) (sha : String) (tagRef : Bool) (ref : String),
      buildTargetImageTags (staticTags.filter (fun t => t != "")) sw sha tagRef ref =
        staticTags.filter (fun t => t != "") ++
        (if sw = true ∧ 7 ≤ sha.length then ["sha-" ++ String.mk (sha.data.take 7)] else []) ++
        (if tagRef = true then (specRefTag (parseGitRef ref)).toList else []) := by
  intro st sw sha tagRef ref
  simp only [buildTargetImageTags]
  set st' := st.filter (fun t => t != "") with hst
  have hsha : (if sw = true ∧ ¬ sha = "" then
        (if 7 ≤ sha.length then st' ++ ["sha-" ++ String.mk (sha.data.take 7)] else st')
      else st') = st' ++ (if sw = true ∧ 7 ≤ sha.length then ["sha-" ++ String.mk (sha.data.take 7)] else []) := by
    by_cases hsw : sw = true
    · by_cases hempty : sha = ""
      · have hlen : ¬ 7 ≤ sha.length := by
          rw [hempty]
          decide
        rw [if_neg (fun hc => hc.2 hempty), if_neg (fun hc => hlen hc.2), List.append_nil]
      · by_cases hlen : 7 ≤ sha.length
        · rw [if_pos ⟨hsw, hempty⟩, if_pos hlen, if_pos ⟨hsw, hlen⟩]
        · rw [if_pos ⟨hsw, hempty⟩, if_neg hlen, if_neg (fun hc => hlen hc.2), List.append_nil]
    · rw [if_neg (fun hc => hsw hc.1), if_neg (fun hc => hsw hc.1), List.append_nil]
  rw [hsha]
  by_cases htr : tagRef = true
  · by_cases href : ref = ""
    · rw [if_neg (fun hc => hc.2 href), if_pos htr, href, parseGitRef_empty]
      simp [specRefTag]
    · rw [if_pos ⟨htr, href⟩, if_pos htr]
      have hne := parseGitRef_name_not_empty ref
      rcases hg : parseGitRef ref with ⟨ty, nm?⟩
      rw [hg] at hne
      cases ty with
      | unknown => simp [specRefTag]
      | head =>
        cases nm? with
        | none => simp [specRefTag]
        | some n =>
          by_cases hm : n = "master"
          · subst hm
            simp [specRefTag]
          · have hn : ¬ n = "" := fun hc => hne (by rw [hc])
            simp [specRefTag, hm, hn]
      | pullRequest =>
        cases nm? with
        | none => simp [specRefTag]
        | some n =>
          have hn : ¬ n = "" := fun hc => hne (by rw [hc])
          simp [specRefTag, hn]
      | tag =>
        cases nm? with
        | none => simp [specRefTag]
        | some n =>
          have hn : ¬ n = "" := fun hc => hne (by rw [hc])
          simp [specRefTag, hn]
  · rw [if_neg (fun hc => htr hc.1), if_neg htr, List.append_nil]

/-! ### C5: publisher sequencing and fail-fast -/

theorem mem_dropLast_cons {α : Type} {n a : α} {t : List α} (h : n ∈ (a :: t).dropLast) :
    n = a ∨ n ∈ t.dropLast := by
  cases t with
  | nil => simp at h
  | cons x xs =>
    have he : (a :: x :: xs).dropLast = a :: (x :: xs).dropLast := rfl
    rw [he] at h
    exact List.mem_cons.mp h

theorem pushLoop_trace_app (f : String → Bool) : ∀ is : List String,
    ∃ rest, (pushLoop f is).2 ++ rest = is
  | [] => ⟨[], rfl⟩
  | i :: is => by
    by_cases hi : f i = true
    · obtain ⟨rest, hr⟩ := pushLoop_trace_app f is
      refine ⟨rest, ?_⟩
      simp only [pushLoop, if_pos hi]
      rw [List.cons_append]
      exact congrArg (List.cons i) hr
    · refine ⟨is, ?_⟩
      simp only [pushLoop, if_neg hi]
      rfl

theorem pushLoop_ok_trace (f : String → Bool) : ∀ is : List String,
    (pushLoop f is).1 = Except.ok () → (pushLoop f is).2 = is
  | [] => fun _ => rfl
  | i :: is => by
    intro h
    by_cases hi : f i = true
    · simp only [pushLoop, if_pos hi] at h ⊢
      rw [pushLoop_ok_trace f is h]
    · simp only [pushLoop, if_neg hi] at h
      exact Except.noConfusion h

theorem pushLoop_dropLast_ok (f : String → Bool) : ∀ is : List String,
    ∀ n ∈ (pushLoop f is).2.dropLast, f n = true
  | [] => by
    intro n hn
    simp [pushLoop] at hn
  | i :: is => by
    intro n hn
    by_cases hi : f i = true
    · simp only [pushLoop, if_pos hi] at hn
      rcases mem_dropLast_cons hn with h1 | h2
      · rw [h1]; exact hi
      · exact pushLoop_dropLast_ok f is n h2
    · simp only [pushLoop, if_neg hi] at hn
      simp at hn

theorem pushLoop_error_last (f : String → Bool) : ∀ (is : List String) (e : String),
    (pushLoop f is).1 = Except.error e →
      ∃ n, (pushLoop f is).2.getLast? = some n ∧ f n = false
  | [], e => by
    intro h
    exact Except.noConfusion h
  | i :: is, e => by
    intro h
    by_cases hi : f i = true
    · simp only [pushLoop, if_pos hi] at h ⊢
      obtain ⟨n, hn, hf⟩ := pushLoop_error_last f is e h
      refine ⟨n, ?_, hf⟩
      have htr : (pushLoop f is).2 ≠ [] := by
        intro hc
        rw [hc] at hn
        exact Option.noConfusion hn
      show ([i] ++ (pushLoop f is).2).getLast? = some n
      rw [List.getLast?_append_of_ne_nil [i] htr]
      exact hn
    · simp only [pushLoop, if_neg hi] at h ⊢
      refine ⟨i, rfl, ?_⟩
      simp at hi
      exact hi

theorem pushLoop_trace_ne_nil (f : String → Bool) (i : String) (is : List String) :
    (pushLoop f (i :: is)).2 ≠ [] := by
  by_cases hi : f i = true
  · simp [pushLoop, if_pos hi]
  · simp [pushLoop, if_neg hi]

theorem tagLoop_trace_app (repo : String) (f : String → Bool) : ∀ ts : List String,
    ∃ rest, (tagLoop repo f ts).2 ++ rest = ts.map (fun t => repo ++ ":" ++ t)
  | [] => ⟨[], rfl⟩
  | t :: ts => by
    by_cases hi : f (repo ++ ":" ++ t) = true
    · obtain ⟨rest, hr⟩ := tagLoop_trace_app repo f ts
      rcases ht : tagLoop repo f ts with ⟨res, tr⟩
      rw [ht] at hr
      cases res with
      | ok imgs =>
        refine ⟨rest, ?_⟩
        simp only [tagLoop, if_pos hi, ht]
        rw [List.map_cons, List.cons_append]
        exact congrArg (List.cons (repo ++ ":" ++ t)) hr
      | error e =>
        refine ⟨rest, ?_⟩
        simp only [tagLoop, if_pos hi, ht]
        rw [List.map_cons, List.cons_append]
        exact congrArg (List.cons (repo ++ ":" ++ t)) hr
    · refine ⟨ts.map (fun t => repo ++ ":" ++ t), ?_⟩
      simp only [tagLoop, if_neg hi]
      rw [List.map_cons]
      rfl

theorem tagLoop_ok (repo : String) (f : String → Bool) : ∀ (ts : List String) (l : List String),
    (tagLoop repo f ts).1 = Except.ok l →
      (tagLoop repo f ts).2 = ts.map (fun t => repo ++ ":" ++ t) ∧
      l = ts.map (fun t => repo ++ ":" ++ t) ∧
      ∀ t ∈ ts, f (repo ++ ":" ++ t) = true
  | [], l => by
    intro h
    injection h with h2
    refine ⟨rfl, h2.symm, ?_⟩
    intro t ht
    simp at ht
  | t :: ts, l => by
    intro h
    by_cases hi : f (repo ++ ":" ++ t) = true
    · rcases ht : tagLoop repo f ts with ⟨res, tr⟩
      cases res with
      | ok imgs =>
        have ih := tagLoop_ok repo f ts imgs (by rw [ht])
        simp only [tagLoop, if_pos hi, ht] at h ⊢
        injection h with h2
        refine ⟨?_, ?_, ?_⟩
        · rw [List.map_cons]
          have htr : tr = ts.map (fun t => repo ++ ":" ++ t) := by
            have := ih.1
            rw [ht] at this
            exact this
          rw [htr]
        · rw [← h2, List.map_cons, ih.2.1]
        · intro u hu
          rcases List.mem_cons.mp hu with h1 | h2
          · rw [h1]; exact hi
          · exact ih.2.2 u h2
      | error e =>
        simp only [tagLoop, if_pos hi, ht] at h
        exact Except.noConfusion h
    · simp only [tagLoop, if_neg hi] at h
      exact Except.noConfusion h

theorem tagLoop_dropLast_ok (repo : String) (f : String → Bool) : ∀ ts : List String,
    ∀ n ∈ (tagLoop repo f ts).2.dropLast, f n = true
  | [] => by
    intro n hn
    simp [tagLoop] at hn
  | t :: ts => by
    intro n hn
    by_cases hi : f (repo ++ ":" ++ t) = true
    · rcases ht : tagLoop repo f ts with ⟨res, tr⟩
      have htr : (tagLoop repo f ts).2 = tr := by rw [ht]
      cases res with
      | ok imgs =>
        simp only [tagLoop, if_pos hi, ht] at hn
        rcases mem_dropLast_cons hn with h1 | h2
        · rw [h1]; exact hi
        · exact tagLoop_dropLast_ok repo f ts n (htr ▸ h2)
      | error e =>
        simp only [tagLoop, if_pos hi, ht] at hn
        rcases mem_dropLast_cons hn with h1 | h2
        · rw [h1]; exact hi
        · exact tagLoop_dropLast_ok repo f ts n (htr ▸ h2)
    · simp only [tagLoop, if_neg hi] at hn
      simp at hn

theorem tagLoop_error_last (repo : String) (f : String → Bool) : ∀ (ts : List String) (e : String),
    (tagLoop repo f ts).1 = Except.error e →
      ∃ n, (tagLoop repo f ts).2.getLast? = some n ∧ f n = false
  | [], e => by
    intro h
    exact Except.noConfusion h
  | t :: ts, e => by
    intro h
    by_cases hi : f (repo ++ ":" ++ t) = true
    · rcases ht : tagLoop repo f ts with ⟨res, tr⟩
      have htr : (tagLoop repo f ts).2 = tr := by rw [ht]
      cases res with
      | ok imgs =>
        simp only [tagLoop, if_pos hi, ht] at h
        exact Except.noConfusion h
      | error e2 =>
        have ih := tagLoop_error_last repo f ts e2 (by rw [ht])
        obtain ⟨n, hn, hf⟩ := ih
        rw [htr] at hn
        simp only [tagLoop, if_pos hi, ht] at h ⊢
        refine ⟨n, ?_, hf⟩
        have htne : tr ≠ [] := by
          intro hc
          rw [hc] at hn
          exact Option.noConfusion hn
        show ([repo ++ ":" ++ t] ++ tr).getLast? = some n
        rw [List.getLast?_append_of_ne_nil [repo ++ ":" ++ t] htne]
        exact hn
    · simp only [tagLoop, if_neg hi] at h ⊢
      refine ⟨repo ++ ":" ++ t, rfl, ?_⟩
      simp at hi
      exact hi

/-- C5: the publish step applies tag operations and push operations in list
order, each tag's tag operation precedes its push, the executed operation
trace is always a prefix of the full tag-then-push sequence, a fully
successful run executes exactly that sequence, every operation before the
last one in the trace succeeded, and on failure the trace ends at the
failing operation — nothing after it is attempted. -/
theorem c5_publish_fail_fast :
    ∀ (repo : String) (tags : List String) (tagOk pushOk : String → Bool),
      (∃ rest, (publishPhase repo tags tagOk pushOk).2 ++ rest = fullPubTrace repo tags) ∧
      ((publishPhase repo tags tagOk pushOk).1 = Except.ok () →
          (publishPhase repo tags tagOk pushOk).2 = fullPubTrace repo tags) ∧
      (∀ op ∈ (publishPhase repo tags tagOk pushOk).2.dropLast, pubOpOk tagOk pushOk op = true) ∧
      (∀ e, (publishPhase repo tags tagOk pushOk).1 = Except.error e →
          ∃ op, (publishPhase repo tags tagOk pushOk).2.getLast? = some op ∧
            pubOpOk tagOk pushOk op = false) := by
  intro repo tags tagOk pushOk
  rcases htl : tagLoop repo tagOk tags with ⟨res, tr⟩
  have htr2 : (tagLoop repo tagOk tags).2 = tr := by rw [htl]
  have htr1 : (tagLoop repo tagOk tags).1 = res := by rw [htl]
  cases res with
  | error e0 =>
    have hpp : publishPhase repo tags tagOk pushOk = (Except.error e0, tr.map PubOp.tagOp) := by
      simp only [publishPhase, htl]
    rw [hpp]
    obtain ⟨r1, hr1⟩ := tagLoop_trace_app repo tagOk tags
    rw [htr2] at hr1
    refine ⟨?_, ?_, ?_, ?_⟩
    · refine ⟨r1.map PubOp.tagOp ++ tags.map (fun t => PubOp.pushOp (repo ++ ":" ++ t)), ?_⟩
      show tr.map PubOp.tagOp ++ (r1.map PubOp.tagOp ++ _) = fullPubTrace repo tags
      rw [← List.append_assoc, ← List.map_append, hr1]
      simp [fullPubTrace, List.map_map, Function.comp]
    · intro h
      exact Except.noConfusion h
    · intro op hop
      rw [← List.map_dropLast] at hop
      obtain ⟨m, hm, rfl⟩ := List.mem_map.mp hop
      show tagOk m = true
      refine tagLoop_dropLast_ok repo tagOk tags m ?_
      rw [htr2]
      exact hm
    · intro e _
      obtain ⟨n, hn, hf⟩ := tagLoop_error_last repo tagOk tags e0 htr1
      rw [htr2] at hn
      refine ⟨PubOp.tagOp n, ?_, hf⟩
      rw [List.getLast?_map, hn]
      rfl
  | ok imgs =>
    obtain ⟨htrmapA, himgs, hall⟩ := tagLoop_ok repo tagOk tags imgs htr1
    have htrmap : tr = tags.map (fun t => repo ++ ":" ++ t) := by
      rw [← htr2]
      exact htrmapA
    subst himgs
    have hpp : publishPhase repo tags tagOk pushOk =
        ((pushLoop pushOk (tags.map (fun t => repo ++ ":" ++ t))).1,
          tr.map PubOp.tagOp ++
            (pushLoop pushOk (tags.map (fun t => repo ++ ":" ++ t))).2.map PubOp.pushOp) := by
      simp only [publishPhase, htl]
    rw [hpp]
    refine ⟨?_, ?_, ?_, ?_⟩
    · obtain ⟨r2, hr2⟩ := pushLoop_trace_app pushOk (tags.map (fun t => repo ++ ":" ++ t))
      refine ⟨r2.map PubOp.pushOp, ?_⟩
      rw [List.append_assoc, ← List.map_append, hr2, htrmap]
      simp only [fullPubTrace, List.map_map]
      rfl
    · intro h
      rw [pushLoop_ok_trace pushOk (tags.map (fun t => repo ++ ":" ++ t)) h, htrmap]
      simp only [fullPubTrace, List.map_map]
      rfl
    · intro op hop
      by_cases hpt : (pushLoop pushOk (tags.map (fun t => repo ++ ":" ++ t))).2.map PubOp.pushOp = []
      · rw [hpt, List.append_nil, ← List.map_dropLast] at hop
        obtain ⟨m, hm, rfl⟩ := List.mem_map.mp hop
        show tagOk m = true
        refine tagLoop_dropLast_ok repo tagOk tags m ?_
        rw [htr2]
        exact hm
      · rw [List.dropLast_append_of_ne_nil _ hpt] at hop
        rcases List.mem_append.mp hop with h1 | h2
        · obtain ⟨m, hm, rfl⟩ := List.mem_map.mp h1
          show tagOk m = true
          rw [htrmap] at hm
          obtain ⟨t, htmem, rfl⟩ := List.mem_map.mp hm
          exact hall t htmem
        · rw [← List.map_dropLast] at h2
          obtain ⟨m, hm, rfl⟩ := List.mem_map.mp h2
          show pushOk m = true
          exact pushLoop_dropLast_ok pushOk (tags.map (fun t => repo ++ ":" ++ t)) m hm
    · intro e he
      obtain ⟨m, hm, hf⟩ := pushLoop_error_last pushOk (tags.map (fun t => repo ++ ":" ++ t)) e he
      have hne : (pushLoop pushOk (tags.map (fun t => repo ++ ":" ++ t))).2.map PubOp.pushOp ≠ [] := by
        intro hc
        simp only [List.map_eq_nil_iff] at hc
        rw [hc] at hm
        exact Option.noConfusion hm
      refine ⟨PubOp.pushOp m, ?_, hf⟩
      rw [List.getLast?_append_of_ne_nil _ hne, List.getLast?_map, hm]
      rfl

theorem c5_publish_fail_fast_witness :
    (publishPhase "r" ["a", "b"] (fun _ => true) (fun _ => true)).2 = fullPubTrace "r" ["a", "b"] :=
  (c5_publish_fail_fast "r" ["a", "b"] (fun _ => true) (fun _ => true)).2.1 (by rfl)


/-! ### C7: the stage extractor -/

theorem jsWs_toLower {c : Char} (h : isJsWs c = true) : c.toLower = c := by
  simp only [isJsWs, isWsC, isLineSep, Bool.or_eq_true, beq_iff_eq] at h
  rcases h with (((h | h) | h) | h) | (h | h) <;> subst h <;> decide

theorem not_jsWs_of_toLower_eq {c k : Char} (hlk : c.toLower = k) (hkw : isJsWs k = false) :
    isJsWs c = false := by
  by_cases hw : isJsWs c = true
  · have hcc := jsWs_toLower hw
    rw [hcc] at hlk
    rw [hlk] at hw
    rw [hw] at hkw
    exact Bool.noConfusion hkw
  · exact eq_false_of_ne_true hw

theorem isNameC_not_jsWs {c : Char} (h : isNameC c = true) : isJsWs c = false := by
  simp only [isNameC, Bool.and_eq_true] at h
  simpa using h.1

theorem takeWhile_all (p : Char → Bool) : ∀ xs : List Char,
    (∀ c ∈ xs, p c = true) → xs.takeWhile p = xs
  | [], _ => rfl
  | x :: xs, h => by
    rw [List.takeWhile_cons, if_pos (h x (List.mem_cons_self x xs)),
      takeWhile_all p xs (fun c hc => h c (List.mem_cons_of_mem x hc))]

theorem dropWhile_all (p : Char → Bool) : ∀ xs : List Char,
    (∀ c ∈ xs, p c = true) → xs.dropWhile p = []
  | [], _ => rfl
  | x :: xs, h => by
    rw [List.dropWhile_cons, if_pos (h x (List.mem_cons_self x xs))]
    exact dropWhile_all p xs (fun c hc => h c (List.mem_cons_of_mem x hc))

theorem head_fact {y : Char} {ys rest : List Char} {p : Char → Bool} (h : p y = false) :
    ∀ c, ((y :: ys) ++ rest).head? = some c → p c = false := by
  intro c hc
  have h2 : some y = some c := hc
  injection h2 with h3
  rw [← h3]
  exact h

theorem head_fact_cons {y : Char} {ys : List Char} {p : Char → Bool} (h : p y = false) :
    ∀ c, (y :: ys).head? = some c → p c = false := by
  intro c hc
  have h2 : some y = some c := hc
  injection h2 with h3
  rw [← h3]
  exact h

theorem takeWhile_all_append_head (p : Char → Bool) (xs ys : List Char)
    (h1 : ∀ c ∈ xs, p c = true) (h2 : ∀ c, ys.head? = some c → p c = false) :
    (xs ++ ys).takeWhile p = xs := by
  rw [List.takeWhile_append_of_pos h1]
  cases ys with
  | nil => simp
  | cons c t =>
    rw [List.takeWhile_cons, if_neg (by rw [h2 c rfl]; exact Bool.false_ne_true), List.append_nil]

theorem dropWhile_all_append_head (p : Char → Bool) (xs ys : List Char)
    (h1 : ∀ c ∈ xs, p c = true) (h2 : ∀ c, ys.head? = some c → p c = false) :
    (xs ++ ys).dropWhile p = ys := by
  rw [List.dropWhile_append_of_pos h1]
  cases ys with
  | nil => rfl
  | cons c t =>
    rw [List.dropWhile_cons, if_neg (by rw [h2 c rfl]; exact Bool.false_ne_true)]

theorem stripCI_of_ciEq : ∀ (f k rest : List Char), ciEq f k → stripCI k (f ++ rest) = some rest
  | [], k, rest, h => by
    have hk : [] = k := h
    rw [← hk]
    rfl
  | c :: f2, k, rest, h => by
    have hk : c.toLower :: List.map Char.toLower f2 = k := h
    rw [← hk]
    show stripCI (c.toLower :: List.map Char.toLower f2) (c :: (f2 ++ rest)) = some rest
    simp only [stripCI, if_true]
    exact stripCI_of_ciEq f2 (List.map Char.toLower f2) rest rfl

theorem stripCI_some : ∀ (k l rest : List Char), stripCI k l = some rest →
    ∃ f, l = f ++ rest ∧ ciEq f k
  | [], l, rest, h => by
    injection h with h2
    exact ⟨[], by rw [h2]; rfl, rfl⟩
  | _ :: _, [], rest, h => by
    exact Option.noConfusion h
  | k :: ks, c :: cs, rest, h => by
    simp only [stripCI] at h
    by_cases hc : c.toLower = k
    · rw [if_pos hc] at h
      obtain ⟨f, hf, hci⟩ := stripCI_some ks cs rest h
      refine ⟨c :: f, ?_, ?_⟩
      · rw [List.cons_append, hf]
      · show (c :: f).map Char.toLower = k :: ks
        rw [List.map_cons, hc]
        rw [show List.map Char.toLower f = ks from hci]
    · rw [if_neg hc] at h
      exact Option.noConfusion h

theorem ciEq_head_not_jsWs {f : List Char} {k : Char} {ks : List Char}
    (hf : ciEq f (k :: ks)) (hk : isJsWs k = false) :
    ∃ c cs, f = c :: cs ∧ isJsWs c = false := by
  cases f with
  | nil => simp [ciEq] at hf
  | cons c cs =>
    refine ⟨c, cs, rfl, ?_⟩
    have h2 : c.toLower :: List.map Char.toLower cs = k :: ks := hf
    injection h2 with h3
    exact not_jsWs_of_toLower_eq h3 hk

theorem stageSpanSpec_assemble {s l2 l6 nm rest : List Char}
    (hs1 : stripCI "from".data (s.dropWhile isJsWs) = some l2)
    (hw1 : ¬ l2.takeWhile isJsWs = [])
    (himgE : ¬ (l2.dropWhile isJsWs).takeWhile (fun c => !(isJsWs c)) = [])
    (hw2 : ¬ ((l2.dropWhile isJsWs).dropWhile (fun c => !(isJsWs c))).takeWhile isJsWs = [])
    (hs2 : stripCI "as".data (((l2.dropWhile isJsWs).dropWhile (fun c => !(isJsWs c))).dropWhile isJsWs) = some l6)
    (hw3 : ¬ l6.takeWhile isJsWs = [])
    (hnmE : ¬ (l6.dropWhile isJsWs).takeWhile isNameC = [])
    (hnm2 : (l6.dropWhile isJsWs).takeWhile isNameC = nm)
    (hdwR : (l6.dropWhile isJsWs).dropWhile isNameC = rest)
    (htail : rest = [] ∨ ∃ c rest2, rest = c :: rest2 ∧ isLineSep c = true) :
    stageSpanSpec s nm rest := by
  obtain ⟨f, hfA, hf⟩ := stripCI_some "from".data (s.dropWhile isJsWs) l2 hs1
  obtain ⟨a, haA, ha⟩ :=
    stripCI_some "as".data (((l2.dropWhile isJsWs).dropWhile (fun c => !(isJsWs c))).dropWhile isJsWs) l6 hs2
  have h6 : l6.dropWhile isJsWs = nm ++ rest := by
    rw [← hnm2, ← hdwR]
    exact (List.takeWhile_append_dropWhile isNameC (l6.dropWhile isJsWs)).symm
  have h0 : s = s.takeWhile isJsWs ++ s.dropWhile isJsWs :=
    (List.takeWhile_append_dropWhile isJsWs s).symm
  rw [hfA] at h0
  have h1 : l2 = l2.takeWhile isJsWs ++ l2.dropWhile isJsWs :=
    (List.takeWhile_append_dropWhile isJsWs l2).symm
  rw [h1] at h0
  have h2 : l2.dropWhile isJsWs =
      (l2.dropWhile isJsWs).takeWhile (fun c => !(isJsWs c)) ++
        (l2.dropWhile isJsWs).dropWhile (fun c => !(isJsWs c)) :=
    (List.takeWhile_append_dropWhile (fun c => !(isJsWs c)) (l2.dropWhile isJsWs)).symm
  rw [h2] at h0
  have h3 : (l2.dropWhile isJsWs).dropWhile (fun c => !(isJsWs c)) =
      ((l2.dropWhile isJsWs).dropWhile (fun c => !(isJsWs c))).takeWhile isJsWs ++
        ((l2.dropWhile isJsWs).dropWhile (fun c => !(isJsWs c))).dropWhile isJsWs :=
    (List.takeWhile_append_dropWhile isJsWs ((l2.dropWhile isJsWs).dropWhile (fun c => !(isJsWs c)))).symm
  rw [h3, haA] at h0
  have h5 : l6 = l6.takeWhile isJsWs ++ l6.dropWhile isJsWs :=
    (List.takeWhile_append_dropWhile isJsWs l6).symm
  rw [h5, h6] at h0
  refine ⟨s.takeWhile isJsWs, f, l2.takeWhile isJsWs,
    (l2.dropWhile isJsWs).takeWhile (fun c => !(isJsWs c)),
    ((l2.dropWhile isJsWs).dropWhile (fun c => !(isJsWs c))).takeWhile isJsWs,
    a, l6.takeWhile isJsWs, h0,
    fun c hc => List.mem_takeWhile_imp hc, hf,
    hw1, fun c hc => List.mem_takeWhile_imp hc,
    himgE, fun c hc => by simpa using List.mem_takeWhile_imp hc,
    hw2, fun c hc => List.mem_takeWhile_imp hc,
    ha,
    hw3, fun c hc => List.mem_takeWhile_imp hc,
    ?_, ?_, htail⟩
  · rw [← hnm2]
    exact hnmE
  · intro c hc
    rw [← hnm2] at hc
    exact List.mem_takeWhile_imp hc

theorem attemptStage_spec_of_some {s nm rest : List Char} (h : attemptStage s = some (nm, rest)) :
    stageSpanSpec s nm rest := by
  simp only [attemptStage] at h
  cases hs1 : stripCI "from".data (s.dropWhile isJsWs) with
  | none =>
    rw [hs1] at h
    simp only at h
    exact Option.noConfusion h
  | some l2 =>
    rw [hs1] at h
    simp only at h
    by_cases hw1 : l2.takeWhile isJsWs = []
    · rw [if_pos hw1] at h
      exact Option.noConfusion h
    · rw [if_neg hw1] at h
      by_cases himgE : (l2.dropWhile isJsWs).takeWhile (fun c => !(isJsWs c)) = []
      · rw [if_pos himgE] at h
        exact Option.noConfusion h
      · rw [if_neg himgE] at h
        by_cases hw2 : ((l2.dropWhile isJsWs).dropWhile (fun c => !(isJsWs c))).takeWhile isJsWs = []
        · rw [if_pos hw2] at h
          exact Option.noConfusion h
        · rw [if_neg hw2] at h
          cases hs2 : stripCI "as".data (((l2.dropWhile isJsWs).dropWhile (fun c => !(isJsWs c))).dropWhile isJsWs) with
          | none =>
            rw [hs2] at h
            simp only at h
            exact Option.noConfusion h
          | some l6 =>
            rw [hs2] at h
            simp only at h
            by_cases hw3 : l6.takeWhile isJsWs = []
            · rw [if_pos hw3] at h
              exact Option.noConfusion h
            · rw [if_neg hw3] at h
              by_cases hnmE : (l6.dropWhile isJsWs).takeWhile isNameC = []
              · rw [if_pos hnmE] at h
                exact Option.noConfusion h
              · rw [if_neg hnmE] at h
                cases hdw : (l6.dropWhile isJsWs).dropWhile isNameC with
                | nil =>
                  rw [hdw] at h
                  simp only at h
                  injection h with hpair
                  injection hpair with hnm2 hrest2
                  exact stageSpanSpec_assemble hs1 hw1 himgE hw2 hs2 hw3 hnmE hnm2
                    (by rw [hdw]; exact hrest2) (Or.inl hrest2.symm)
                | cons c rest2 =>
                  rw [hdw] at h
                  simp only at h
                  by_cases hsep : isLineSep c = true
                  · rw [if_pos hsep] at h
                    injection h with hpair
                    injection hpair with hnm2 hrest2
                    exact stageSpanSpec_assemble hs1 hw1 himgE hw2 hs2 hw3 hnmE hnm2
                      (by rw [hdw]; exact hrest2) (Or.inr ⟨c, rest2, hrest2.symm, hsep⟩)
                  · rw [if_neg hsep] at h
                    exact Option.noConfusion h

theorem attemptStage_some_of_spec {s nm rest : List Char} (h : stageSpanSpec s nm rest) :
    attemptStage s = some (nm, rest) := by
  obtain ⟨w0, f, w1, img, w2, a, w3, hdec, hw0, hf, hw1ne, hw1, himgne, himg, hw2ne, hw2,
    ha, hw3ne, hw3, hnmne, hnm, htail⟩ := h
  obtain ⟨fc, f2, rfl, hfc⟩ := ciEq_head_not_jsWs hf (by decide)
  obtain ⟨ac, a2, rfl, hac⟩ := ciEq_head_not_jsWs ha (by decide)
  cases img with
  | nil => exact absurd rfl himgne
  | cons ic i2 =>
  cases w2 with
  | nil => exact absurd rfl hw2ne
  | cons w2c w22 =>
  cases nm with
  | nil => exact absurd rfl hnmne
  | cons nc n2 =>
  have hic : isJsWs ic = false := himg ic (List.mem_cons_self ic i2)
  have hw2c : isJsWs w2c = true := hw2 w2c (List.mem_cons_self w2c w22)
  have hnc : isJsWs nc = false := isNameC_not_jsWs (hnm nc (List.mem_cons_self nc n2))
  have hrh : ∀ c, rest.head? = some c → isNameC c = false := by
    rcases htail with rfl | ⟨c0, r2, rfl, hsep⟩
    · intro c hc
      exact absurd hc (by simp)
    · exact head_fact_cons (by simp [isNameC, isJsWs, hsep])
  subst hdec
  simp only [attemptStage]
  rw [dropWhile_all_append_head isJsWs w0 _ hw0 (head_fact hfc)]
  rw [stripCI_of_ciEq _ _ _ hf]
  simp only
  rw [takeWhile_all_append_head isJsWs w1 _ hw1 (head_fact hic)]
  rw [if_neg hw1ne]
  rw [dropWhile_all_append_head isJsWs w1 _ hw1 (head_fact hic)]
  rw [takeWhile_all_append_head (fun c => !(isJsWs c)) (ic :: i2) _
    (fun c hc => by simp [himg c hc]) (head_fact (by simp [hw2c]))]
  rw [if_neg (List.cons_ne_nil ic i2)]
  rw [dropWhile_all_append_head (fun c => !(isJsWs c)) (ic :: i2) _
    (fun c hc => by simp [himg c hc]) (head_fact (by simp [hw2c]))]
  rw [takeWhile_all_append_head isJsWs (w2c :: w22) _ hw2 (head_fact hac)]
  rw [if_neg (List.cons_ne_nil w2c w22)]
  rw [dropWhile_all_append_head isJsWs (w2c :: w22) _ hw2 (head_fact hac)]
  rw [stripCI_of_ciEq _ _ _ ha]
  simp only
  rw [takeWhile_all_append_head isJsWs w3 _ hw3 (head_fact hnc)]
  rw [if_neg hw3ne]
  rw [dropWhile_all_append_head isJsWs w3 _ hw3 (head_fact hnc)]
  rw [takeWhile_all_append_head isNameC (nc :: n2) rest hnm hrh]
  rw [if_neg (List.cons_ne_nil nc n2)]
  rw [dropWhile_all_append_head isNameC (nc :: n2) rest hnm hrh]
  rcases htail with rfl | ⟨c0, r2, rfl, hsep⟩
  · rfl
  · simp only
    rw [if_pos hsep]

theorem dropWhile_length_le (p : Char → Bool) : ∀ l : List Char,
    (l.dropWhile p).length ≤ l.length
  | [] => le_refl _
  | x :: xs => by
    rw [List.dropWhile_cons]
    by_cases hx : p x = true
    · rw [if_pos hx]
      exact Nat.le_succ_of_le (dropWhile_length_le p xs)
    · rw [if_neg hx]

theorem attemptStage_rest_length {s nm rest : List Char}
    (h : attemptStage s = some (nm, rest)) : rest.length < s.length := by
  obtain ⟨w0, f, w1, img, w2, a, w3, hdec, _, _, _, _, _, _, _, _, _, _, _, hnmne, _, _⟩ :=
    attemptStage_spec_of_some h
  subst hdec
  have hnm1 : 0 < nm.length := List.length_pos.mpr hnmne
  simp only [List.length_append]
  omega

/-- Any fuel above the text length gives the same scan: each step of the
exec loop strictly shortens the remaining text. -/
theorem scanStagesFuel_irrel : ∀ (f1 f2 : Nat) (s : List Char),
    s.length < f1 → s.length < f2 → scanStagesFuel f1 s = scanStagesFuel f2 s
  | 0, _, s, h1, _ => absurd h1 (by omega)
  | _ + 1, 0, s, _, h2 => absurd h2 (by omega)
  | f1 + 1, f2 + 1, s, h1, h2 => by
    simp only [scanStagesFuel]
    cases hA : attemptStage s with
    | some pr =>
      obtain ⟨nm, rest⟩ := pr
      simp only
      cases rest with
      | nil => rfl
      | cons c rest2 =>
        have hlen := attemptStage_rest_length hA
        simp only [List.length_cons] at hlen
        simp only
        rw [scanStagesFuel_irrel f1 f2 rest2 (by omega) (by omega)]
    | none =>
      simp only
      cases hD : s.dropWhile (fun c => !(isLineSep c)) with
      | nil => rfl
      | cons c rest2 =>
        have hle := dropWhile_length_le (fun c => !(isLineSep c)) s
        rw [hD] at hle
        simp only [List.length_cons] at hle
        simp only
        rw [scanStagesFuel_irrel f1 f2 rest2 (by omega) (by omega)]

/-- C7 (counterexample): trailing build-flag noise after the stage name
defeats the match (the capture must reach a line boundary), so
`FROM a AS b --platform=linux` contributes nothing although the claim would
make it contribute `b`; and the whitespace runs of the pattern span line
terminators, so `FROM img\nAS name` contributes `name` although no single
line has the claimed form. -/
theorem c7_counterexample :
    (parseBuildTargets "FROM a AS b --platform=linux\nFROM golang AS final" = ["final"] ∧
      ¬ parseBuildTargets "FROM a AS b --platform=linux\nFROM golang AS final" = ["b", "final"]) ∧
    (parseBuildTargets "FROM img\nAS name" = ["name"] ∧
      ¬ parseBuildTargets "FROM img\nAS name" = []) := by
  refine ⟨⟨by decide, by decide⟩, by decide, by decide⟩

/-- C7 (amended): the extractor scans the whole Dockerfile text with the
multiline pattern and returns, in scan order with duplicates preserved, the
`<name>` captures of `FROM <image> AS <name>` matches that begin at a line
start — keywords case-insensitive, the whitespace runs between the tokens
drawn from the full `\s` class and hence allowed to span line terminators,
the name made of characters that are neither whitespace nor `+`, and the
name followed immediately by a line terminator or the end of the text (any
trailing content defeats the match); text taking part in no match is
ignored. -/
theorem c7_stage_extractor :
    (∀ (s nm rest : List Char), attemptStage s = some (nm, rest) ↔ stageSpanSpec s nm rest) ∧
    parseBuildTargets "FROM golang:1.20 AS builder\nFROM scratch\nFROM scratch AS final" =
      ["builder", "final"] ∧
    parseBuildTargets "FROM img\nAS name" = ["name"] ∧
    parseBuildTargets "FROM a AS x\nFROM b AS x" = ["x", "x"] := by
  refine ⟨fun s nm rest => ⟨attemptStage_spec_of_some, attemptStage_some_of_spec⟩,
    by decide, by decide, by decide⟩

theorem c7_stage_extractor_witness :
    stageSpanSpec "FROM alpine AS base".data "base".data [] :=
  (c7_stage_extractor.1 "FROM alpine AS base".data "base".data []).mp (by decide)
